import Mathlib

/-!
Verification of the kira / conductor audio-engine core against its
specification.  The Rust sources are shallowly embedded: `f32`/`f64`
arithmetic is modelled exactly over `ℚ`, vectors become lists, and
fallible operations return `Except`/`Option`.
-/

set_option autoImplicit false

/-- Rust truncation toward zero of a float, modelled on `ℚ`
(`x.trunc()`; also the integral part used by `x % 1.0` and by
`x as usize`). -/
def ratTrunc (q : ℚ) : ℤ :=
if 0 ≤ q then ⌊q⌋ else ⌈q⌉

/-- Rust `x % 1.0` on floats: the remainder keeps the sign of the
dividend, so it equals `x - x.trunc()`. -/
def fmodOne (q : ℚ) : ℚ :=
q - ratTrunc q

/-- Rust `x as usize` for a float `x`: truncation toward zero,
saturating at 0 for negative inputs. -/
def usizeOfRat (q : ℚ) : ℕ :=
(ratTrunc q).toNat

namespace Conductor

/-- `StereoSample` of `conductor` (modelled from the spec, §3 Frame:
`stereo_sample.rs` is not under `src/`): a pair of samples, closed
under componentwise addition, subtraction and scalar multiplication;
a mono value `x` expands to `(x, x)`. -/
structure StereoSample where
  left : ℚ
  right : ℚ
deriving DecidableEq, Repr

def StereoSample.new (left right : ℚ) : StereoSample :=
⟨left, right⟩

def StereoSample.from_mono (x : ℚ) : StereoSample :=
⟨x, x⟩

/-- Modelled from the spec: `StereoSample::from_i32` (in
`stereo_sample.rs`, not under `src/`) converts each integer channel
sample to a float; the standard PCM normalisation by `2^(bit_depth-1)`
is used, applied to the left and right channels alike.  The claims
depend only on the conversion being per-channel. -/
def StereoSample.from_i32 (left right : ℤ) (bit_depth : ℕ) : StereoSample :=
⟨(left : ℚ) / (2 ^ (bit_depth - 1) : ℚ), (right : ℚ) / (2 ^ (bit_depth - 1) : ℚ)⟩

instance : Add StereoSample :=
⟨fun a b => ⟨a.left + b.left, a.right + b.right⟩⟩

instance : Sub StereoSample :=
⟨fun a b => ⟨a.left - b.left, a.right - b.right⟩⟩

instance : HMul StereoSample ℚ StereoSample :=
⟨fun a q => ⟨a.left * q, a.right * q⟩⟩

@[simp] theorem StereoSample.stereo_add_def (a b : StereoSample) :
    a + b = ⟨a.left + b.left, a.right + b.right⟩ := rfl

@[simp] theorem StereoSample.stereo_sub_def (a b : StereoSample) :
    a - b = ⟨a.left - b.left, a.right - b.right⟩ := rfl

@[simp] theorem StereoSample.stereo_mul_def (a : StereoSample) (q : ℚ) :
    a * q = ⟨a.left * q, a.right * q⟩ := rfl

/-- `SoundMetadata` (`tempo.rs` is not under `src/`; a tempo is a
scalar, which is all the embedding needs). -/
structure SoundMetadata where
  tempo : Option ℚ
deriving DecidableEq, Repr

/-- `SoundSettings` from `conductor/src/sound.rs`. -/
structure SoundSettings where
  cooldown : Option ℚ
  metadata : SoundMetadata
deriving DecidableEq, Repr

/-- `ConductorError` (modelled from the spec, §6 error taxonomy:
`error.rs` is not under `src/`). -/
inductive ConductorError where
  | UnsupportedChannelConfiguration
  | UnsupportedAudioFileFormat
  | DecodeFailure
  | StillCoolingDown
  | CommandQueueFull
  | RoutingCycleDetected
  | DeviceUnavailable
deriving DecidableEq, Repr

/-- `Sound` from `conductor/src/sound.rs`. -/
structure Sound where
  sample_rate : ℕ
  samples : List StereoSample
  duration : ℚ
  cooldown : Option ℚ
  cooldown_timer : ℚ
deriving DecidableEq, Repr

/-- `Sound::new`.  (`samples.len() as f64 / sample_rate as f64`; for
`sample_rate = 0` Rust would produce a non-finite float while `ℚ`
division yields 0 — no claim touches `duration`.) -/
def Sound.new (sample_rate : ℕ) (samples : List StereoSample)
    (settings : SoundSettings) : Sound :=
{ sample_rate := sample_rate
  samples := samples
  duration := (samples.length : ℚ) / (sample_rate : ℚ)
  cooldown := settings.cooldown
  cooldown_timer := 0 }

/-- `Sound::get_sample_at_position` from `conductor/src/sound.rs`
(lines 244-273), with `f64` modelled over `ℚ`. -/
def Sound.get_sample_at_position (s : Sound) (position : ℚ) : StereoSample :=
  let sample_position : ℚ := (s.sample_rate : ℚ) * position
  let x : ℚ := fmodOne sample_position
  let current_sample_index : ℕ := usizeOfRat sample_position
  let y0 : StereoSample :=
    if current_sample_index = 0 then StereoSample.from_mono 0
    else (s.samples.getD (current_sample_index - 1) (StereoSample.from_mono 0))
  let y1 : StereoSample := s.samples.getD current_sample_index (StereoSample.from_mono 0)
  let y2 : StereoSample := s.samples.getD (current_sample_index + 1) (StereoSample.from_mono 0)
  let y3 : StereoSample := s.samples.getD (current_sample_index + 2) (StereoSample.from_mono 0)
  let c0 : StereoSample := y1
  let c1 : StereoSample := (y2 - y0) * (1/2 : ℚ)
  let c2 : StereoSample := y0 - y1 * (5/2 : ℚ) + y2 * (2 : ℚ) - y3 * (1/2 : ℚ)
  let c3 : StereoSample := (y3 - y0) * (1/2 : ℚ) + (y1 - y2) * (3/2 : ℚ)
  ((c3 * x + c2) * x + c1) * x + c0

/-- `Sound::start_cooldown`. -/
def Sound.start_cooldown (s : Sound) : Sound :=
  match s.cooldown with
  | some cooldown => { s with cooldown_timer := cooldown }
  | none => s

/-- `Sound::update_cooldown`. -/
def Sound.update_cooldown (s : Sound) (dt : ℚ) : Sound :=
  if s.cooldown_timer > 0 then { s with cooldown_timer := s.cooldown_timer - dt }
  else s

/-- `Sound::cooling_down`. -/
def Sound.cooling_down (s : Sound) : Bool :=
  s.cooldown_timer > 0

/-- One `update_cooldown` call per render tick, over a list of `dt`s
(spec §4.3: "Timers tick down by dt once per render"). -/
def Sound.update_cooldown_list (s : Sound) (dts : List ℚ) : Sound :=
  dts.foldl Sound.update_cooldown s

/-- Modelled from the spec (§4.3 Cooldown): the control-side admission
check lives in the `Project`/instance code, which is not under `src/`.
"While the timer is >0, subsequent play requests for the same asset are
rejected on the control side with a `StillCoolingDown` error";
a successful request re-arms the cooldown. -/
def Sound.request_play (s : Sound) : Except ConductorError Sound :=
  if s.cooling_down then Except.error ConductorError.StillCoolingDown
  else Except.ok s.start_cooldown

/-- Spec-side formulation for claim C1: the neighbor frame at a signed
index, where "any index outside `[0, s.len())` contributes the silent
frame `(0,0)`". -/
def neighborFrame (samples : List StereoSample) (j : ℤ) : StereoSample :=
  if 0 ≤ j ∧ j < (samples.length : ℤ) then samples.getD j.toNat (StereoSample.new 0 0)
  else StereoSample.new 0 0

/-- Spec-side formulation for claim C1: 4-point cubic Hermite
interpolation at cursor `p·sr`, with `i = floor(p·sr)`, fractional part
`x`, neighbors at `i-1, i, i+1, i+2`, and the claim's coefficients. -/
def hermiteSpec (samples : List StereoSample) (sr : ℕ) (p : ℚ) : StereoSample :=
  let cursor : ℚ := (sr : ℚ) * p
  let i : ℤ := ⌊cursor⌋
  let x : ℚ := cursor - (⌊cursor⌋ : ℚ)
  let y0 := neighborFrame samples (i - 1)
  let y1 := neighborFrame samples i
  let y2 := neighborFrame samples (i + 1)
  let y3 := neighborFrame samples (i + 2)
  let c0 := y1
  let c1 := (y2 - y0) * (1/2 : ℚ)
  let c2 := y0 - y1 * (5/2 : ℚ) + y2 * (2 : ℚ) - y3 * (1/2 : ℚ)
  let c3 := (y3 - y0) * (1/2 : ℚ) + (y1 - y2) * (3/2 : ℚ)
  ((c3 * x + c2) * x + c1) * x + c0

end Conductor

/-- Loader input for `Sound::from_ogg_file`: the decoded packets a
`lewton::OggStreamReader` yields (file IO and Vorbis decoding are
external; the embedding starts from the decoded `Vec<Vec<f32>>`
packets).  Each packet is a list of channels, each channel a list of
samples; `num_samples` is the length of channel 0 (lewton's
`Samples::num_samples`). -/
def Conductor.packetNumSamples (packet : List (List ℚ)) : ℕ :=
  (packet.head?.map List.length).getD 0

/-- The per-packet body of the `while let` loop in
`Sound::from_ogg_file` (lines 114-130): match on the packet's channel
count; 1 duplicates into stereo, 2 pairs the channels, anything else
is `UnsupportedChannelConfiguration`. -/
def Conductor.oggPacketFrames (packet : List (List ℚ)) :
    Except Conductor.ConductorError (List Conductor.StereoSample) :=
  match packet with
  | [ch0] =>
    Except.ok ((List.range (Conductor.packetNumSamples [ch0])).map
      (fun i => Conductor.StereoSample.from_mono (ch0.getD i 0)))
  | [ch0, ch1] =>
    Except.ok ((List.range (Conductor.packetNumSamples [ch0, ch1])).map
      (fun i => Conductor.StereoSample.new (ch0.getD i 0) (ch1.getD i 0)))
  | _ => Except.error Conductor.ConductorError.UnsupportedChannelConfiguration

/-- The accumulation loop of `Sound::from_ogg_file` over all decoded
packets. -/
def Conductor.oggCollect (packets : List (List (List ℚ))) :
    Except Conductor.ConductorError (List Conductor.StereoSample) :=
  match packets with
  | [] => Except.ok []
  | p :: rest => do
    let f ← Conductor.oggPacketFrames p
    let r ← Conductor.oggCollect rest
    Except.ok (f ++ r)

/-- `Sound::from_ogg_file` (lines 108-136), starting from the decoded
packet stream and the identification header's sample rate. -/
def Conductor.Sound.from_ogg_file (packets : List (List (List ℚ)))
    (audio_sample_rate : ℕ) (settings : Conductor.SoundSettings) :
    Except Conductor.ConductorError Conductor.Sound := do
  let stereo_samples ← Conductor.oggCollect packets
  Except.ok (Conductor.Sound.new audio_sample_rate stereo_samples settings)

/-- The `while let (Some(left), Some(right)) = (iter.next(), iter.next())`
pairing of an interleaved sample stream: consecutive pairs, a trailing
odd sample is dropped. -/
def Conductor.pairUp {α : Type} : List α → List (α × α)
  | a :: b :: rest => (a, b) :: Conductor.pairUp rest
  | _ => []

/-- `Sound::from_flac_file` (lines 138-169), starting from the decoded
stream info (channel count, bits per sample, sample rate) and the
interleaved integer samples a `claxon::FlacReader` yields. -/
def Conductor.Sound.from_flac_file (channels : ℕ) (bits_per_sample : ℕ)
    (samples : List ℤ) (sample_rate : ℕ) (settings : Conductor.SoundSettings) :
    Except Conductor.ConductorError Conductor.Sound :=
  match channels with
  | 1 =>
    Except.ok (Conductor.Sound.new sample_rate
      (samples.map (fun s => Conductor.StereoSample.from_i32 s s bits_per_sample))
      settings)
  | 2 =>
    Except.ok (Conductor.Sound.new sample_rate
      ((Conductor.pairUp samples).map
        (fun p => Conductor.StereoSample.from_i32 p.1 p.2 bits_per_sample))
      settings)
  | _ => Except.error Conductor.ConductorError.UnsupportedChannelConfiguration

/-- The decoded sample stream of a WAV file: hound yields either float
or integer samples depending on `spec.sample_format`. -/
inductive Conductor.WavSamples where
  | Float (samples : List ℚ)
  | Int (samples : List ℤ)

/-- `Sound::from_wav_file` (lines 171-221), starting from the WAV spec
(channel count, bits per sample, sample rate) and the decoded
interleaved samples. -/
def Conductor.Sound.from_wav_file (channels : ℕ) (bits_per_sample : ℕ)
    (data : Conductor.WavSamples) (sample_rate : ℕ)
    (settings : Conductor.SoundSettings) :
    Except Conductor.ConductorError Conductor.Sound :=
  match channels with
  | 1 =>
    match data with
    | Conductor.WavSamples.Float samples =>
      Except.ok (Conductor.Sound.new sample_rate
        (samples.map Conductor.StereoSample.from_mono) settings)
    | Conductor.WavSamples.Int samples =>
      Except.ok (Conductor.Sound.new sample_rate
        (samples.map (fun s => Conductor.StereoSample.from_i32 s s bits_per_sample))
        settings)
  | 2 =>
    match data with
    | Conductor.WavSamples.Float samples =>
      Except.ok (Conductor.Sound.new sample_rate
        ((Conductor.pairUp samples).map
          (fun p => Conductor.StereoSample.new p.1 p.2)) settings)
    | Conductor.WavSamples.Int samples =>
      Except.ok (Conductor.Sound.new sample_rate
        ((Conductor.pairUp samples).map
          (fun p => Conductor.StereoSample.from_i32 p.1 p.2 bits_per_sample))
        settings)
  | _ => Except.error Conductor.ConductorError.UnsupportedChannelConfiguration

namespace Kira

/-- `Frame` of the kira crates (modelled from the spec, §3: `frame.rs`
and `dsp/mod.rs` are not under `src/`): a pair of samples with
componentwise arithmetic; silence is `(0, 0)`; a mono value `x`
expands to `(x, x)`. -/
structure Frame where
  left : ℚ
  right : ℚ
deriving DecidableEq, Repr

def Frame.from_mono (x : ℚ) : Frame :=
⟨x, x⟩

instance : Add Frame :=
⟨fun a b => ⟨a.left + b.left, a.right + b.right⟩⟩

instance : Sub Frame :=
⟨fun a b => ⟨a.left - b.left, a.right - b.right⟩⟩

instance : HMul Frame ℚ Frame :=
⟨fun a q => ⟨a.left * q, a.right * q⟩⟩

@[simp] theorem Frame.frame_add_def (a b : Frame) :
    a + b = ⟨a.left + b.left, a.right + b.right⟩ := rfl

@[simp] theorem Frame.frame_sub_def (a b : Frame) :
    a - b = ⟨a.left - b.left, a.right - b.right⟩ := rfl

@[simp] theorem Frame.frame_mul_def (a : Frame) (q : ℚ) :
    a * q = ⟨a.left * q, a.right * q⟩ := rfl

/-- The `ringbuf` crate's `HeapRb` SPSC ring (modelled from the
dependency's documented contract, matching spec §4.1): fixed capacity,
`try_push` appends unless the ring is full — a push onto a full ring
fails and the NEW item is discarded, never an old one — and `try_pop`
removes the oldest item. -/
structure HeapRb (α : Type) where
  capacity : ℕ
  items : List α

/-- `Producer::try_push`: returns the updated ring and whether the
push succeeded (`Ok(())` vs `Err(item)`). -/
def HeapRb.try_push {α : Type} (rb : HeapRb α) (v : α) : HeapRb α × Bool :=
  if rb.items.length < rb.capacity then ({ rb with items := rb.items ++ [v] }, true)
  else (rb, false)

/-- `Consumer::try_pop`: removes and returns the oldest item. -/
def HeapRb.try_pop {α : Type} (rb : HeapRb α) : Option α × HeapRb α :=
  match rb.items with
  | [] => (none, rb)
  | x :: rest => (some x, { rb with items := rest })

/-- `CPU_USAGE_RINGBUFFER_CAPACITY` from
`renderer_with_cpu_usage.rs`. -/
def CPU_USAGE_RINGBUFFER_CAPACITY : ℕ := 100

/-- `RendererWithCpuUsage::new` builds the CPU-usage ring
(`RingBuffer::new(CPU_USAGE_RINGBUFFER_CAPACITY)`). -/
def RendererWithCpuUsage.newRing : HeapRb ℚ :=
  ⟨CPU_USAGE_RINGBUFFER_CAPACITY, []⟩

/-- `RendererWithCpuUsage::process` (lines 38-46): the inner
`renderer.process` call and the wall-clock measurement are outside the
embedding, so the measured `process_duration` is an input; the
function computes `allotted_time = out.len() / num_channels /
sample_rate`, the ratio `cpu_usage = process_duration /
allotted_time`, and pushes it with `try_push(..).ok()` (a failed push
on a full ring is silently discarded). -/
def RendererWithCpuUsage.process (out_len num_channels sample_rate : ℕ)
    (process_duration : ℚ) (rb : HeapRb ℚ) : HeapRb ℚ :=
  let allotted_time : ℚ := (out_len : ℚ) / (num_channels : ℚ) / (sample_rate : ℚ)
  let cpu_usage : ℚ := process_duration / allotted_time
  (rb.try_push cpu_usage).1

/-- `CpalBackend::pop_cpu_usage` (desktop.rs lines 50-57): pops the
oldest reported CPU usage from the consumer side of the same ring. -/
def CpalBackend.pop_cpu_usage (rb : HeapRb ℚ) : Option ℚ × HeapRb ℚ :=
  rb.try_pop

/-- `SendOnDrop<T>` from `send_on_drop.rs`: the guard's `data` slot
(`Option<T>`); the shared return ring is threaded explicitly. -/
structure SendOnDrop (α : Type) where
  data : Option α

/-- `SendOnDrop::new` (lines 20-33): wraps the value and builds a ring
of capacity 1 shared between the producer and the returned consumer. -/
def SendOnDrop.new {α : Type} (data : α) : SendOnDrop α × HeapRb α :=
  (⟨some data⟩, ⟨1, []⟩)

/-- The `Drop` impl (lines 49-56): takes the value out of the slot and
pushes it into the return ring; `take().unwrap()` and
`.ok().expect(..)` panic when the slot is empty or the ring is full —
modelled as `none`. -/
def SendOnDrop.dropGuard {α : Type} (g : SendOnDrop α) (rb : HeapRb α) :
    Option (HeapRb α) :=
  match g.data with
  | none => none
  | some v =>
    let r := rb.try_push v
    if r.2 then some r.1 else none

/-- `PlaybackPosition` of `crates/kira` (its file is not under `src/`;
modelled from the spec, §3 Region: a position is given "in seconds or
frames").  The seconds conversion to samples is not pinned by the
spec; truncation toward zero is used, and no claim depends on it — the
theorems use the `Samples` variant. -/
inductive PlaybackPosition where
  | Seconds (seconds : ℚ)
  | Samples (samples : ℕ)
deriving DecidableEq, Repr

def PlaybackPosition.into_samples : PlaybackPosition → ℕ → ℕ
  | PlaybackPosition.Seconds s, sample_rate => usizeOfRat (s * (sample_rate : ℚ))
  | PlaybackPosition.Samples n, _ => n

/-- `EndPosition` (modelled from the spec, §3 Region: a "distinguished
EndOfAudio terminator" or an explicit position). -/
inductive EndPosition where
  | EndOfAudio
  | Custom (pos : PlaybackPosition)
deriving DecidableEq, Repr

/-- `Region` (modelled from the spec, §3): a half-open interval
`[start, end)`.  `end` is a reserved word in Lean, hence `endPos`. -/
structure Region where
  start : PlaybackPosition
  endPos : EndPosition
deriving DecidableEq, Repr

/-- `StaticSoundData` from `crates/kira/src/sound/static_sound/data.rs`.
The playback `settings` field is omitted as it is irrelevant
to the claims about slicing. -/
structure StaticSoundData where
  sample_rate : ℕ
  frames : List Frame
  slice : Option (ℕ × ℕ)
deriving DecidableEq, Repr

/-- Free function `num_frames` (data.rs lines 386-392).  Rust computes
`end - start` in `usize` (panicking on underflow in debug builds); ℕ
subtraction truncates at 0 — the claims only evaluate windows with
`start ≤ end`. -/
def num_frames (frames : List Frame) (slice : Option (ℕ × ℕ)) : ℕ :=
  match slice with
  | some (s, e) => e - s
  | none => frames.length

/-- Free function `frame_at_index` (data.rs lines 394-404).  The
source indexes `frames[index + start]`, which panics when `index +
start ≥ frames.len()`; `get?` yields `none` there, and the
theorems only evaluate the function under windows that stay within
bounds. -/
def frame_at_index (index : ℕ) (frames : List Frame)
    (slice : Option (ℕ × ℕ)) : Option Frame :=
  if index ≥ num_frames frames slice then none
  else
    let start := (slice.map Prod.fst).getD 0
    frames.get? (index + start)

def StaticSoundData.num_frames (data : StaticSoundData) : ℕ :=
  Kira.num_frames data.frames data.slice

def StaticSoundData.frame_at_index (data : StaticSoundData) (index : ℕ) :
    Option Frame :=
  Kira.frame_at_index index data.frames data.slice

/-- `StaticSoundData::slice` (data.rs lines 322-333); the
`impl IntoOptionalRegion` argument is taken as an `Option Region`.
Named `sliced` because Lean does not allow a method named after the
`slice` field. -/
def StaticSoundData.sliced (data : StaticSoundData) (region : Option Region) :
    StaticSoundData :=
  { data with
    slice := region.map (fun r =>
      let start := r.start.into_samples data.sample_rate
      let e := match r.endPos with
        | EndPosition.EndOfAudio => data.frames.length
        | EndPosition.Custom p => p.into_samples data.sample_rate
      (start, e)) }

end Kira

namespace KiraOld

/-- `TrackIndex` of `kira/src/mixer` (`mixer/mod.rs` is not under
`src/`; the two variants `Main` and `Sub(SubTrackId)` are fixed by the
`match` arms of `mixer.rs`).  `SubTrackId` is an opaque unique
identifier, modelled as `ℕ`. -/
inductive TrackIndex where
  | Main
  | Sub (id : ℕ)
deriving DecidableEq, Repr

/-- `EffectId` (not under `src/`): an opaque unique identifier that
also records which track the effect lives on —
`mixer.rs` line 49 calls `effect_id.track_index()`. -/
structure EffectId where
  index : ℕ
  track_index : TrackIndex
deriving DecidableEq, Repr

/-- `EffectSettings` (modelled from the spec, §3 EffectSlot: "carries
an Effect, an enabled flag, and a mix tween"; the mix tween is carried
at its current scalar value). -/
structure EffectSettings where
  enabled : Bool
  mix : ℚ
deriving DecidableEq, Repr

/-- The `Effect` capability (spec §9: a polymorphic
`process(frame, dt, info) -> frame`; the read-only `Parameters`
snapshot is omitted — no claim depends on it). -/
def Effect : Type := Kira.Frame → ℚ → Kira.Frame

/-- `EffectSlot` (modelled from the spec, §3 and §4.4). -/
structure EffectSlot where
  id : EffectId
  effect : Effect
  enabled : Bool
  mix : ℚ

/-- Linear interpolation used for the effect mix (spec §4.4 step 2:
`mixed = lerp(input, effect.process(input, dt, info), mix_value)`). -/
def frameLerp (a b : Kira.Frame) (m : ℚ) : Kira.Frame :=
  a + (b - a) * m

/-- `EffectSlot::process` (modelled from the spec, §4.4 step 2): if
enabled, mix the effect's output with the dry input, else pass the
input through. -/
def EffectSlot.process (slot : EffectSlot) (input : Kira.Frame) (dt : ℚ) :
    Kira.Frame :=
  if slot.enabled then frameLerp input (slot.effect input dt) slot.mix
  else input

/-- `Track` (modelled from the spec, §3 and §4.4: `track.rs` is not
under `src/`): the input accumulator, the ordered effect chain, the
volume, and the equal-power panning gains.  The spec's gains are
`cos(p·π/2)` and `sin(p·π/2)`; they are carried as precomputed scalar
fields because no claim depends on their trigonometric values. -/
structure Track where
  input : Kira.Frame
  effect_slots : List EffectSlot
  volume : ℚ
  pan_left_gain : ℚ
  pan_right_gain : ℚ

/-- `Track::add_input`: accumulate a frame into the track's input. -/
def Track.add_input (t : Track) (input : Kira.Frame) : Track :=
  { t with input := t.input + input }

/-- `Track::process` (modelled from the spec, §4.4 steps 1-3): take the
accumulator and reset it to silence, run the effect chain in insertion
order, then apply volume and panning.  Routing (step 4) is performed
by the caller, `Mixer::process`. -/
def Track.process (t : Track) (dt : ℚ) : Track × Kira.Frame :=
  let input := t.input
  let after_effects := t.effect_slots.foldl (fun f slot => slot.process f dt) input
  let out : Kira.Frame :=
    ⟨after_effects.left * t.volume * t.pan_left_gain,
     after_effects.right * t.volume * t.pan_right_gain⟩
  ({ t with input := Kira.Frame.from_mono 0 }, out)

/-- `Track::add_effect` (modelled from the spec, §4.4: "adds are
appended"). -/
def Track.add_effect (t : Track) (id : EffectId) (effect : Effect)
    (settings : EffectSettings) : Track :=
  { t with effect_slots := t.effect_slots ++ [⟨id, effect, settings.enabled, settings.mix⟩] }

/-- `Track::remove_effect` (modelled from the spec, §4.4: "removes
leave no gaps in iteration because an ordered map keyed by opaque
identifier is used"): remove and return the slot with the given id. -/
def Track.remove_effect (t : Track) (effect_id : EffectId) :
    Option EffectSlot × Track :=
  match t.effect_slots.find? (fun slot => slot.id == effect_id) with
  | none => (none, t)
  | some slot =>
    (some slot, { t with effect_slots := t.effect_slots.eraseP (fun s => s.id == effect_id) })

/-- `IndexMap::get` on an insertion-ordered association list. -/
def indexMapGet (m : List (ℕ × Track)) (id : ℕ) : Option Track :=
  (m.find? (fun p => p.1 == id)).map Prod.snd

/-- `IndexMap::insert`: replace in place when the key is present,
append otherwise. -/
def indexMapInsert (m : List (ℕ × Track)) (id : ℕ) (t : Track) :
    List (ℕ × Track) :=
  if (indexMapGet m id).isSome then
    m.map (fun p => if p.1 = id then (p.1, t) else p)
  else m ++ [(id, t)]

/-- `IndexMap::get_mut`-then-mutate: apply `f` to the value stored at
`id` (keys are unique in an `IndexMap`, so mapping over all matches is
the same operation). -/
def indexMapModify (m : List (ℕ × Track)) (id : ℕ) (f : Track → Track) :
    List (ℕ × Track) :=
  m.map (fun p => if p.1 = id then (p.1, f p.2) else p)

/-- `IndexMap::remove`, which is `swap_remove`: the removed entry's
slot is filled by the LAST entry of the map.  Returns the removed
value and the new map. -/
def indexMapSwapRemove (m : List (ℕ × Track)) (id : ℕ) :
    Option Track × List (ℕ × Track) :=
  let before := m.takeWhile (fun p => p.1 != id)
  match m.dropWhile (fun p => p.1 != id) with
  | [] => (none, m)
  | e :: after =>
    (some e.2,
      match after.getLast? with
      | none => before
      | some la => before ++ la :: after.dropLast)

/-- `MixerCommand` from `kira/src/command` (not under `src/`; the four
variants and their payloads are fixed by the `match` in
`Mixer::run_command`). -/
inductive MixerCommand where
  | AddSubTrack (id : ℕ) (track : Track)
  | AddEffect (index : TrackIndex) (id : EffectId) (effect : Effect)
      (settings : EffectSettings)
  | RemoveSubTrack (id : ℕ)
  | RemoveEffect (effect_id : EffectId)

/-- `Mixer` from `kira/src/manager/backend/mixer.rs`: the main track
and the insertion-ordered sub-track map. -/
structure Mixer where
  main_track : Track
  sub_tracks : List (ℕ × Track)

/-- `Mixer::run_command` (mixer.rs lines 24-60).  The two flume
`Sender`s are unbounded, so `try_send` always succeeds; each channel
is modelled as the list of messages sent so far, and the function
returns the updated mixer and both channels. -/
def Mixer.run_command (m : Mixer) (command : MixerCommand)
    (tracks_to_unload : List Track) (effect_slots_to_unload : List EffectSlot) :
    Mixer × List Track × List EffectSlot :=
  match command with
  | MixerCommand.AddSubTrack id track =>
    ({ m with sub_tracks := indexMapInsert m.sub_tracks id track },
      tracks_to_unload, effect_slots_to_unload)
  | MixerCommand.AddEffect index id effect settings =>
    (match index with
      | TrackIndex.Main =>
        ({ m with main_track := m.main_track.add_effect id effect settings },
          tracks_to_unload, effect_slots_to_unload)
      | TrackIndex.Sub sid =>
        if (indexMapGet m.sub_tracks sid).isSome then
          ({ m with sub_tracks :=
              indexMapModify m.sub_tracks sid (fun t => t.add_effect id effect settings) },
            tracks_to_unload, effect_slots_to_unload)
        else (m, tracks_to_unload, effect_slots_to_unload))
  | MixerCommand.RemoveSubTrack id =>
    (match indexMapSwapRemove m.sub_tracks id with
      | (some track, rest) =>
        ({ m with sub_tracks := rest }, tracks_to_unload ++ [track],
          effect_slots_to_unload)
      | (none, _) => (m, tracks_to_unload, effect_slots_to_unload))
  | MixerCommand.RemoveEffect effect_id =>
    (match effect_id.track_index with
      | TrackIndex.Main =>
        (match m.main_track.remove_effect effect_id with
          | (some effect_slot, t) =>
            ({ m with main_track := t }, tracks_to_unload,
              effect_slots_to_unload ++ [effect_slot])
          | (none, t) =>
            ({ m with main_track := t }, tracks_to_unload, effect_slots_to_unload))
      | TrackIndex.Sub sid =>
        (match indexMapGet m.sub_tracks sid with
          | none => (m, tracks_to_unload, effect_slots_to_unload)
          | some t =>
            (match t.remove_effect effect_id with
              | (some effect_slot, t2) =>
                ({ m with sub_tracks := indexMapModify m.sub_tracks sid (fun _ => t2) },
                  tracks_to_unload, effect_slots_to_unload ++ [effect_slot])
              | (none, t2) =>
                ({ m with sub_tracks := indexMapModify m.sub_tracks sid (fun _ => t2) },
                  tracks_to_unload, effect_slots_to_unload))))

/-- `Mixer::add_input` (mixer.rs lines 62-68): route a frame into the
addressed track's accumulator; an unknown sub-track id falls back to
the main track (`unwrap_or(&mut self.main_track)`). -/
def Mixer.add_input (m : Mixer) (index : TrackIndex) (input : Kira.Frame) :
    Mixer :=
  match index with
  | TrackIndex.Main => { m with main_track := m.main_track.add_input input }
  | TrackIndex.Sub id =>
    if (indexMapGet m.sub_tracks id).isSome then
      { m with sub_tracks := indexMapModify m.sub_tracks id (fun t => t.add_input input) }
    else { m with main_track := m.main_track.add_input input }

/-- `Mixer::process` (mixer.rs lines 70-77): process each sub-track in
map order, summing their outputs into `main_input`; feed that into the
main track and process it last, returning its output. -/
def Mixer.process (m : Mixer) (dt : ℚ) : Mixer × Kira.Frame :=
  let step := m.sub_tracks.foldl
    (fun (acc : List (ℕ × Track) × Kira.Frame) p =>
      let r := p.2.process dt
      (acc.1 ++ [(p.1, r.1)], acc.2 + r.2))
    ([], Kira.Frame.from_mono 0)
  let main1 := m.main_track.add_input step.2
  let r := main1.process dt
  (⟨r.1, step.1⟩, r.2)

/-- The sum of a list of frames (used to state claim C5). -/
def sumFrames (l : List Kira.Frame) : Kira.Frame :=
  l.foldl (fun a b => a + b) (Kira.Frame.from_mono 0)

end KiraOld

/-- Statement-side helper: the interleaved form of a stereo sample
stream, `[l0, r0, l1, r1, ...]`. -/
def interleave {α : Type} : List (α × α) → List α
  | [] => []
  | p :: rest => p.1 :: p.2 :: interleave rest

/-- C9: dropping a `SendOnDrop` guard made by `new(v)` pushes `v` into
the return ring (never panicking, since the fresh capacity-1 ring is
empty), and the consumer's next pop recovers exactly `v`: the value
round-trips instead of being destroyed on the dropping side. -/
theorem send_on_drop_round_trip (α : Type) (v : α) :
    Kira.SendOnDrop.dropGuard (Kira.SendOnDrop.new v).1 (Kira.SendOnDrop.new v).2 =
      some ⟨1, [v]⟩ ∧
    Kira.HeapRb.try_pop (⟨1, [v]⟩ : Kira.HeapRb α) = (some v, ⟨1, []⟩) := by
  exact ⟨rfl, rfl⟩

/-- C3 counterexample: with the CPU-usage ring already full (100
observations, all 0), a render callback with `out.len() = 2`,
`num_channels = 2`, `sample_rate = 1` and elapsed time 1 computes the
observation `1 / (2/2/1) = 1`, but the push leaves the ring unchanged:
the NEW observation `1` is dropped, not the oldest — contradicting the
claim that the oldest is dropped so the new observation is retained. -/
theorem cpu_usage_full_ring_counterexample :
    Kira.RendererWithCpuUsage.process 2 2 1 1
        ⟨Kira.CPU_USAGE_RINGBUFFER_CAPACITY, List.replicate 100 (0 : ℚ)⟩ =
      ⟨Kira.CPU_USAGE_RINGBUFFER_CAPACITY, List.replicate 100 (0 : ℚ)⟩ ∧
    (1 : ℚ) ∉ (Kira.RendererWithCpuUsage.process 2 2 1 1
        ⟨Kira.CPU_USAGE_RINGBUFFER_CAPACITY, List.replicate 100 (0 : ℚ)⟩).items := by
  constructor
  · rfl
  · intro h
    have := List.eq_of_mem_replicate (show (1 : ℚ) ∈ List.replicate 100 (0 : ℚ) from h)
    norm_num at this

/-- C3 (amended): the observation pushed by the render callback equals
`elapsed / allotted` with `allotted = out.len() / num_channels /
device_sr`; the ring has capacity 100; when the ring is not full the
observation is appended, and when it is already full the NEW
observation is silently dropped (the ring, including its oldest entry,
is unchanged); `pop_cpu_usage` returns the oldest observation in the
queue. -/
theorem cpu_usage_ring_spec (out_len num_channels sample_rate : ℕ)
    (elapsed : ℚ) (rb : Kira.HeapRb ℚ) :
    (rb.items.length < rb.capacity →
      (Kira.RendererWithCpuUsage.process out_len num_channels sample_rate elapsed rb).items =
        rb.items ++ [elapsed / ((out_len : ℚ) / (num_channels : ℚ) / (sample_rate : ℚ))]) ∧
    (rb.capacity ≤ rb.items.length →
      Kira.RendererWithCpuUsage.process out_len num_channels sample_rate elapsed rb = rb) ∧
    (∀ (x : ℚ) (rest : List ℚ), rb.items = x :: rest →
      Kira.CpalBackend.pop_cpu_usage rb = (some x, { rb with items := rest })) ∧
    Kira.RendererWithCpuUsage.newRing.capacity = 100 := by
  refine ⟨?_, ?_, ?_, rfl⟩
  · intro h
    simp [Kira.RendererWithCpuUsage.process, Kira.HeapRb.try_push, h]
  · intro h
    simp [Kira.RendererWithCpuUsage.process, Kira.HeapRb.try_push, Nat.not_lt.mpr h]
  · intro x rest h
    simp [Kira.CpalBackend.pop_cpu_usage, Kira.HeapRb.try_pop, h]

/-- C3 witness: a non-full ring holding one observation `3`: the
callback (`out.len() = 4`, 2 channels, device rate 2, elapsed 1)
appends `1 / (4/2/2) = 1`, and pop returns the oldest observation 3. -/
theorem cpu_usage_ring_spec_witness :
    (Kira.RendererWithCpuUsage.process 4 2 2 1 ⟨100, [3]⟩).items = [3, 1] ∧
    Kira.CpalBackend.pop_cpu_usage ⟨100, [(3 : ℚ)]⟩ = (some 3, ⟨100, []⟩) := by
  constructor
  · have h := (cpu_usage_ring_spec 4 2 2 1 ⟨100, [3]⟩).1 (by norm_num)
    rw [h]
    norm_num
  · exact (cpu_usage_ring_spec 4 2 2 1 ⟨100, [3]⟩).2.2.1 3 [] rfl

/-- C2 counterexample: a two-frame buffer sliced with the region
`[samples 0, samples 5)` stores the window `(0, 5)` untouched — the
window end 5 exceeds the buffer length 2 (no clamping happens), and
`num_frames()` = 5 exceeds the underlying frame count. -/
theorem slice_not_clamped_counterexample :
    ((⟨1, [⟨0, 0⟩, ⟨0, 0⟩], none⟩ : Kira.StaticSoundData).sliced
        (some ⟨Kira.PlaybackPosition.Samples 0,
          Kira.EndPosition.Custom (Kira.PlaybackPosition.Samples 5)⟩)).slice =
      some (0, 5) ∧
    ¬ ((⟨1, [⟨0, 0⟩, ⟨0, 0⟩], none⟩ : Kira.StaticSoundData).sliced
        (some ⟨Kira.PlaybackPosition.Samples 0,
          Kira.EndPosition.Custom (Kira.PlaybackPosition.Samples 5)⟩)).num_frames ≤ 2 := by
  exact ⟨rfl, by decide⟩

/-- C2 (amended): `slice(region)` stores the window exactly as
computed, without clamping it to the buffer length, so the stored end
can exceed `frames.len()`.  For every sound whose stored window does
satisfy `start ≤ end ≤ frames.len()`, `num_frames = end - start` never
exceeds the underlying frame count and `frame_at_index(i)` returns
`Some` frame of the underlying buffer (the one at `start + i`) for
every `i < num_frames`, without indexing out of bounds. -/
theorem static_sound_slice_window_spec :
    (∀ (d : Kira.StaticSoundData) (a b : ℕ),
      (d.sliced (some ⟨Kira.PlaybackPosition.Samples a,
          Kira.EndPosition.Custom (Kira.PlaybackPosition.Samples b)⟩)).slice =
        some (a, b)) ∧
    (∀ (d : Kira.StaticSoundData) (s e : ℕ),
      d.slice = some (s, e) → s ≤ e → e ≤ d.frames.length →
      d.num_frames ≤ d.frames.length ∧
      d.num_frames = e - s ∧
      ∀ i, i < d.num_frames →
        ∃ h : i + s < d.frames.length,
          d.frame_at_index i = some (d.frames.get ⟨i + s, h⟩)) := by
  constructor
  · intro d a b
    rfl
  · intro d s e hslice hse hlen
    have hnum : d.num_frames = e - s := by
      simp [Kira.StaticSoundData.num_frames, Kira.num_frames, hslice]
    refine ⟨?_, hnum, ?_⟩
    · rw [hnum]
      omega
    · intro i hi
      rw [hnum] at hi
      have hbound : i + s < d.frames.length := by omega
      refine ⟨hbound, ?_⟩
      simp only [Kira.StaticSoundData.frame_at_index, Kira.frame_at_index, hslice]
      rw [if_neg ?_]
      · simp [List.get?_eq_get hbound]
      · simp only [Kira.num_frames, not_le]
        omega

/-- C2 witness: frames `[(1,2), (3,4)]` with stored window `(1, 2)`:
the effective length is 1 ≤ 2 and `frame_at_index(0)` yields the
underlying frame at index 1. -/
theorem static_sound_slice_window_spec_witness :
    (⟨1, [⟨1, 2⟩, ⟨3, 4⟩], some (1, 2)⟩ : Kira.StaticSoundData).num_frames ≤ 2 ∧
    (⟨1, [⟨1, 2⟩, ⟨3, 4⟩], some (1, 2)⟩ : Kira.StaticSoundData).frame_at_index 0 =
      some ⟨3, 4⟩ := by
  have h := static_sound_slice_window_spec.2
    (⟨1, [⟨1, 2⟩, ⟨3, 4⟩], some (1, 2)⟩ : Kira.StaticSoundData) 1 2 rfl
    (by norm_num) (by norm_num)
  refine ⟨h.1, ?_⟩
  obtain ⟨hb, heq⟩ := h.2.2 0 (by rw [h.2.1]; decide)
  rw [heq]
  rfl

/-- Once the cooldown timer is not positive, further `update_cooldown`
calls leave the sound unchanged. -/
theorem update_cooldown_list_of_nonpos (s : Conductor.Sound) (dts : List ℚ)
    (h : ¬ s.cooldown_timer > 0) : s.update_cooldown_list dts = s := by
  induction dts with
  | nil => rfl
  | cons d rest ih =>
    have hstep : s.update_cooldown d = s := by
      simp [Conductor.Sound.update_cooldown, h]
    simp only [Conductor.Sound.update_cooldown_list, List.foldl_cons] at *
    rw [hstep, ih]

/-- While the timer is positive, a sequence of nonnegative `dt` ticks
leaves the sound cooling down exactly when their total stays below the
timer. -/
theorem cooling_down_after_updates (dts : List ℚ) :
    ∀ s : Conductor.Sound, 0 < s.cooldown_timer → (∀ dt ∈ dts, 0 ≤ dt) →
    (s.update_cooldown_list dts).cooling_down = decide (dts.sum < s.cooldown_timer) := by
  induction dts with
  | nil =>
    intro s hpos _
    simp [Conductor.Sound.update_cooldown_list, Conductor.Sound.cooling_down, hpos]
  | cons d rest ih =>
    intro s hpos hnn
    have hd : 0 ≤ d := hnn d (List.mem_cons_self d rest)
    have hrest : ∀ dt ∈ rest, 0 ≤ dt := fun dt hdt => hnn dt (List.mem_cons_of_mem d hdt)
    have hstep : s.update_cooldown d =
        { s with cooldown_timer := s.cooldown_timer - d } := by
      simp [Conductor.Sound.update_cooldown, hpos]
    simp only [Conductor.Sound.update_cooldown_list, List.foldl_cons]
    rw [hstep]
    by_cases hpos' : 0 < s.cooldown_timer - d
    · have := ih { s with cooldown_timer := s.cooldown_timer - d } hpos' hrest
      simp only [Conductor.Sound.update_cooldown_list] at this
      rw [this]
      simp only [List.sum_cons]
      congr 1
      simp only [eq_iff_iff]
      constructor <;> intro h <;> linarith
    · have hrest0 : 0 ≤ rest.sum := List.sum_nonneg hrest
      have hfix := update_cooldown_list_of_nonpos
        { s with cooldown_timer := s.cooldown_timer - d } rest hpos'
      simp only [Conductor.Sound.update_cooldown_list] at hfix
      rw [hfix]
      have hcool : Conductor.Sound.cooling_down
          { s with cooldown_timer := s.cooldown_timer - d } = false := by
        simp only [Conductor.Sound.cooling_down]
        simpa using hpos'
      rw [hcool]
      have : ¬ (d :: rest).sum < s.cooldown_timer := by
        simp only [List.sum_cons]
        push_neg at hpos' ⊢
        linarith
      simp only [this, decide_eq_false_iff_not, not_false_eq_true]
      rfl

/-- C4: with `cooldown = Some c`, `c > 0`, `start_cooldown` arms the
timer: the sound reports `cooling_down` (so a play request is rejected
with `StillCoolingDown`) exactly until the `update_cooldown(dt)` calls
have accumulated a total `dt ≥ c`, after which a play request
succeeds; with `cooldown = None`, `start_cooldown` on a fresh sound
leaves `cooling_down` false. -/
theorem conductor_cooldown_spec :
    (∀ (s : Conductor.Sound) (c : ℚ) (dts : List ℚ),
      s.cooldown = some c → 0 < c → (∀ dt ∈ dts, 0 ≤ dt) →
      ((s.start_cooldown.update_cooldown_list dts).cooling_down =
          decide (dts.sum < c) ∧
        (dts.sum < c →
          (s.start_cooldown.update_cooldown_list dts).request_play =
            Except.error Conductor.ConductorError.StillCoolingDown) ∧
        (c ≤ dts.sum →
          ∃ s', (s.start_cooldown.update_cooldown_list dts).request_play =
            Except.ok s'))) ∧
    (∀ (sample_rate : ℕ) (samples : List Conductor.StereoSample)
        (settings : Conductor.SoundSettings),
      settings.cooldown = none →
      (Conductor.Sound.new sample_rate samples settings).start_cooldown.cooling_down =
        false) := by
  constructor
  · intro s c dts hc hcpos hnn
    have hstart : s.start_cooldown = { s with cooldown_timer := c } := by
      simp [Conductor.Sound.start_cooldown, hc]
    have hcool : (s.start_cooldown.update_cooldown_list dts).cooling_down =
        decide (dts.sum < c) := by
      rw [hstart]
      exact cooling_down_after_updates dts { s with cooldown_timer := c } hcpos hnn
    refine ⟨hcool, ?_, ?_⟩
    · intro hlt
      simp [Conductor.Sound.request_play, hcool, hlt]
    · intro hge
      refine ⟨(s.start_cooldown.update_cooldown_list dts).start_cooldown, ?_⟩
      simp [Conductor.Sound.request_play, hcool, not_lt.mpr hge]
  · intro sample_rate samples settings hnone
    simp [Conductor.Sound.new, Conductor.Sound.start_cooldown,
      Conductor.Sound.cooling_down, hnone]

/-- C4 witness, the spec's concrete scenario: cooldown 0.1 s; after one
tick of 0.05 s the sound is still cooling down and a play request is
rejected with `StillCoolingDown`; after a further 0.06 s tick (total
0.11 s ≥ 0.1 s) the request succeeds. -/
theorem conductor_cooldown_spec_witness :
    ((Conductor.Sound.new 1000 [] ⟨some (1/10), ⟨none⟩⟩).start_cooldown.update_cooldown_list
        [1/20]).request_play =
      Except.error Conductor.ConductorError.StillCoolingDown ∧
    ∃ s', ((Conductor.Sound.new 1000 [] ⟨some (1/10), ⟨none⟩⟩).start_cooldown.update_cooldown_list
        [1/20, 3/50]).request_play = Except.ok s' := by
  constructor
  · exact ((conductor_cooldown_spec.1 (Conductor.Sound.new 1000 [] ⟨some (1/10), ⟨none⟩⟩)
      (1/10) [1/20] rfl (by norm_num) (by norm_num)).2.1 (by norm_num))
  · exact ((conductor_cooldown_spec.1 (Conductor.Sound.new 1000 [] ⟨some (1/10), ⟨none⟩⟩)
      (1/10) [1/20, 3/50] rfl (by norm_num) (by norm_num)).2.2 (by norm_num))

theorem ratTrunc_of_nonneg (q : ℚ) (h : 0 ≤ q) : ratTrunc q = ⌊q⌋ :=
  if_pos h

theorem ratTrunc_coe_nat (i : ℕ) : ratTrunc (i : ℚ) = (i : ℤ) := by
  rw [ratTrunc_of_nonneg _ (by positivity)]
  exact Int.floor_natCast i

/-- Indexing with `getD` at a nonnegative signed index agrees with the
spec's out-of-bounds-is-silence neighbor convention. -/
theorem getD_eq_neighborFrame (samples : List Conductor.StereoSample) (j : ℤ)
    (hj : 0 ≤ j) :
    samples.getD j.toNat (Conductor.StereoSample.from_mono 0) =
      Conductor.neighborFrame samples j := by
  unfold Conductor.neighborFrame
  by_cases h : j < (samples.length : ℤ)
  · rw [if_pos ⟨hj, h⟩]
    have hlt : j.toNat < samples.length := by omega
    rw [List.getD_eq_getElem samples (Conductor.StereoSample.from_mono 0) hlt,
      List.getD_eq_getElem samples (Conductor.StereoSample.new 0 0) hlt]
  · rw [if_neg (by tauto)]
    have hge : samples.length ≤ j.toNat := by omega
    rw [List.getD_eq_default samples (Conductor.StereoSample.from_mono 0) hge]
    rfl

/-- C1: for every position `p ≥ 0`, `get_sample_at_position` computes
exactly the claim's 4-point cubic Hermite interpolation at cursor
`p·sr`: with `i = floor(p·sr)`, fractional part `x`, neighbors
`y0..y3` at signed indices `i-1, i, i+1, i+2` (indices outside
`[0, s.len())` contributing silence), the result is
`((c3·x + c2)·x + c1)·x + c0` with the claim's coefficients. -/
theorem conductor_interpolation_matches_spec (s : Conductor.Sound) (p : ℚ)
    (hp : 0 ≤ p) :
    s.get_sample_at_position p = Conductor.hermiteSpec s.samples s.sample_rate p := by
  have hsp : 0 ≤ (s.sample_rate : ℚ) * p := mul_nonneg (by positivity) hp
  have hfl : 0 ≤ ⌊(s.sample_rate : ℚ) * p⌋ := Int.floor_nonneg.mpr hsp
  have hx : fmodOne ((s.sample_rate : ℚ) * p) =
      (s.sample_rate : ℚ) * p - (⌊(s.sample_rate : ℚ) * p⌋ : ℚ) := by
    rw [fmodOne, ratTrunc_of_nonneg _ hsp]
  have hidx : usizeOfRat ((s.sample_rate : ℚ) * p) =
      (⌊(s.sample_rate : ℚ) * p⌋).toNat := by
    rw [usizeOfRat, ratTrunc_of_nonneg _ hsp]
  simp only [Conductor.Sound.get_sample_at_position, Conductor.hermiteSpec]
  rw [hx, hidx]
  have hy1 : s.samples.getD (⌊(s.sample_rate : ℚ) * p⌋).toNat
      (Conductor.StereoSample.from_mono 0) =
      Conductor.neighborFrame s.samples ⌊(s.sample_rate : ℚ) * p⌋ :=
    getD_eq_neighborFrame s.samples _ hfl
  have hy2 : s.samples.getD ((⌊(s.sample_rate : ℚ) * p⌋).toNat + 1)
      (Conductor.StereoSample.from_mono 0) =
      Conductor.neighborFrame s.samples (⌊(s.sample_rate : ℚ) * p⌋ + 1) := by
    have ht : (⌊(s.sample_rate : ℚ) * p⌋ + 1).toNat =
        (⌊(s.sample_rate : ℚ) * p⌋).toNat + 1 := by omega
    rw [← ht]
    exact getD_eq_neighborFrame s.samples _ (by omega)
  have hy3 : s.samples.getD ((⌊(s.sample_rate : ℚ) * p⌋).toNat + 2)
      (Conductor.StereoSample.from_mono 0) =
      Conductor.neighborFrame s.samples (⌊(s.sample_rate : ℚ) * p⌋ + 2) := by
    have ht : (⌊(s.sample_rate : ℚ) * p⌋ + 2).toNat =
        (⌊(s.sample_rate : ℚ) * p⌋).toNat + 2 := by omega
    rw [← ht]
    exact getD_eq_neighborFrame s.samples _ (by omega)
  rw [hy1, hy2, hy3]
  by_cases h0 : (⌊(s.sample_rate : ℚ) * p⌋).toNat = 0
  · have hi0 : ⌊(s.sample_rate : ℚ) * p⌋ = 0 := by omega
    rw [if_pos h0, hi0]
    have hneg : Conductor.neighborFrame s.samples ((0 : ℤ) - 1) =
        Conductor.StereoSample.from_mono 0 := by
      unfold Conductor.neighborFrame
      rw [if_neg (by omega)]
      rfl
    rw [hneg]
  · rw [if_neg h0]
    have hy0 : s.samples.getD ((⌊(s.sample_rate : ℚ) * p⌋).toNat - 1)
        (Conductor.StereoSample.from_mono 0) =
        Conductor.neighborFrame s.samples (⌊(s.sample_rate : ℚ) * p⌋ - 1) := by
      have ht : (⌊(s.sample_rate : ℚ) * p⌋ - 1).toNat =
          (⌊(s.sample_rate : ℚ) * p⌋).toNat - 1 := by omega
      rw [← ht]
      exact getD_eq_neighborFrame s.samples _ (by omega)
    rw [hy0]

/-- C1 witness: the 4-frame ramp `[1, 2, 3, 4]` at 2 Hz sampled at
position `p = 3/4` (cursor 1.5) matches the spec-side Hermite value. -/
theorem conductor_interpolation_matches_spec_witness :
    (Conductor.Sound.new 2
        [⟨1, 1⟩, ⟨2, 2⟩, ⟨3, 3⟩, ⟨4, 4⟩] ⟨none, ⟨none⟩⟩).get_sample_at_position (3/4) =
      Conductor.hermiteSpec [⟨1, 1⟩, ⟨2, 2⟩, ⟨3, 3⟩, ⟨4, 4⟩] 2 (3/4) := by
  exact conductor_interpolation_matches_spec
    (Conductor.Sound.new 2 [⟨1, 1⟩, ⟨2, 2⟩, ⟨3, 3⟩, ⟨4, 4⟩] ⟨none, ⟨none⟩⟩)
    (3/4) (by norm_num)

/-- C8: when `p·sr` is exactly a nonnegative integer `i < s.len()`,
the interpolation degenerates to the original sample: the fractional
part is 0, so the output is `c0 = y1 = s[i]`. -/
theorem conductor_integer_cursor_identity (s : Conductor.Sound) (p : ℚ) (i : ℕ)
    (hsp : (s.sample_rate : ℚ) * p = (i : ℚ)) (h : i < s.samples.length) :
    s.get_sample_at_position p = s.samples.get ⟨i, h⟩ := by
  simp only [Conductor.Sound.get_sample_at_position]
  rw [hsp]
  have hx : fmodOne (i : ℚ) = 0 := by
    rw [fmodOne, ratTrunc_coe_nat]
    simp
  have hidx : usizeOfRat (i : ℚ) = i := by
    rw [usizeOfRat, ratTrunc_coe_nat]
    rfl
  rw [hx, hidx]
  simp [Conductor.StereoSample.stereo_mul_def, Conductor.StereoSample.stereo_add_def,
    List.getElem?_eq_getElem h, List.get_eq_getElem]

/-- C8 witness: the ramp `[1, 2, 3, 4]` at 2 Hz sampled at `p = 1`
(cursor exactly 2) returns the original third frame `(3, 3)`. -/
theorem conductor_integer_cursor_identity_witness :
    (Conductor.Sound.new 2
        [⟨1, 1⟩, ⟨2, 2⟩, ⟨3, 3⟩, ⟨4, 4⟩] ⟨none, ⟨none⟩⟩).get_sample_at_position 1 =
      ⟨3, 3⟩ := by
  have h := conductor_integer_cursor_identity
    (Conductor.Sound.new 2 [⟨1, 1⟩, ⟨2, 2⟩, ⟨3, 3⟩, ⟨4, 4⟩] ⟨none, ⟨none⟩⟩)
    1 2 (by norm_num [Conductor.Sound.new]) (by norm_num [Conductor.Sound.new])
  rw [h]
  rfl

@[simp] theorem frame_from_mono_def (x : ℚ) :
    Kira.Frame.from_mono x = ⟨x, x⟩ := rfl

@[simp] theorem frame_zero_add (a : Kira.Frame) :
    Kira.Frame.from_mono 0 + a = a := by
  cases a
  simp [Kira.Frame.from_mono]

@[simp] theorem frame_add_zero (a : Kira.Frame) :
    a + Kira.Frame.from_mono 0 = a := by
  cases a
  simp [Kira.Frame.from_mono]

theorem frame_add_assoc (a b c : Kira.Frame) : a + b + c = a + (b + c) := by
  simp [add_assoc]

/-- A `some`-returning `indexMapGet` exhibits the entry in the map. -/
theorem indexMapGet_some_mem {m : List (ℕ × KiraOld.Track)} {id : ℕ}
    {t : KiraOld.Track} (h : KiraOld.indexMapGet m id = some t) : (id, t) ∈ m := by
  obtain ⟨e, he, het⟩ := Option.map_eq_some'.mp h
  have hkey : e.1 = id := by
    have := List.find?_some he
    simpa using this
  have hmem := List.mem_of_find?_eq_some he
  have : e = (id, t) := by
    cases e
    simp_all
  rwa [this] at hmem

/-- `indexMapModify` leaves entries with other keys untouched. -/
theorem indexMapModify_mem_iff {m : List (ℕ × KiraOld.Track)} {id : ℕ}
    {f : KiraOld.Track → KiraOld.Track} {p : ℕ × KiraOld.Track} (hne : p.1 ≠ id) :
    p ∈ KiraOld.indexMapModify m id f ↔ p ∈ m := by
  constructor
  · intro hp
    obtain ⟨q, hq, hqe⟩ := List.mem_map.mp hp
    by_cases hq1 : q.1 = id
    · rw [if_pos hq1] at hqe
      exfalso
      apply hne
      rw [← hqe]
      exact hq1
    · rw [if_neg hq1] at hqe
      rwa [← hqe]
  · intro hp
    have : (if p.1 = id then (p.1, f p.2) else p) ∈ KiraOld.indexMapModify m id f :=
      List.mem_map_of_mem _ hp
    rwa [if_neg hne] at this

/-- C10: `Mixer::add_input` routes a frame to the addressed track's
accumulator; a `Sub(id)` with an id absent from the sub-track map
falls back to the main track instead of dropping the frame or
panicking; a known id accumulates into exactly that sub-track, and
`Main` accumulates into the main track. -/
theorem mixer_add_input_fallback_spec (m : KiraOld.Mixer) (input : Kira.Frame)
    (id : ℕ) :
    (KiraOld.indexMapGet m.sub_tracks id = none →
      m.add_input (KiraOld.TrackIndex.Sub id) input =
        { m with main_track := m.main_track.add_input input }) ∧
    (∀ t : KiraOld.Track, KiraOld.indexMapGet m.sub_tracks id = some t →
      (m.add_input (KiraOld.TrackIndex.Sub id) input).main_track = m.main_track ∧
      (id, t.add_input input) ∈ (m.add_input (KiraOld.TrackIndex.Sub id) input).sub_tracks ∧
      ∀ p : ℕ × KiraOld.Track, p.1 ≠ id →
        (p ∈ (m.add_input (KiraOld.TrackIndex.Sub id) input).sub_tracks ↔
          p ∈ m.sub_tracks)) ∧
    m.add_input KiraOld.TrackIndex.Main input =
      { m with main_track := m.main_track.add_input input } := by
  refine ⟨?_, ?_, rfl⟩
  · intro h
    simp [KiraOld.Mixer.add_input, h]
  · intro t ht
    have hsome : (KiraOld.indexMapGet m.sub_tracks id).isSome := by
      rw [ht]
      rfl
    have hres : m.add_input (KiraOld.TrackIndex.Sub id) input =
        { m with sub_tracks :=
            KiraOld.indexMapModify m.sub_tracks id (fun tr => tr.add_input input) } := by
      simp [KiraOld.Mixer.add_input, hsome]
    rw [hres]
    refine ⟨rfl, ?_, ?_⟩
    · have hmem : (id, t) ∈ m.sub_tracks := indexMapGet_some_mem ht
      show (id, t.add_input input) ∈
        KiraOld.indexMapModify m.sub_tracks id (fun tr => tr.add_input input)
      refine List.mem_map.mpr ⟨(id, t), hmem, ?_⟩
      simp
    · intro p hp
      show p ∈ KiraOld.indexMapModify m.sub_tracks id (fun tr => tr.add_input input) ↔
        p ∈ m.sub_tracks
      exact indexMapModify_mem_iff hp

/-- C10 witness: a mixer with the single sub-track id 5; routing to the
unknown id 7 accumulates into the main track, routing to 5 reaches the
sub-track. -/
theorem mixer_add_input_fallback_spec_witness :
    (KiraOld.Mixer.add_input
        ⟨⟨⟨1, 2⟩, [], 1, 1, 1⟩, [(5, ⟨⟨0, 0⟩, [], 1, 1, 1⟩)]⟩
        (KiraOld.TrackIndex.Sub 7) ⟨3, 4⟩).main_track.input = ⟨4, 6⟩ ∧
    (5, KiraOld.Track.add_input ⟨⟨0, 0⟩, [], 1, 1, 1⟩ ⟨3, 4⟩) ∈
      (KiraOld.Mixer.add_input
        ⟨⟨⟨1, 2⟩, [], 1, 1, 1⟩, [(5, ⟨⟨0, 0⟩, [], 1, 1, 1⟩)]⟩
        (KiraOld.TrackIndex.Sub 5) ⟨3, 4⟩).sub_tracks := by
  constructor
  · have h := (mixer_add_input_fallback_spec
      ⟨⟨⟨1, 2⟩, [], 1, 1, 1⟩, [(5, ⟨⟨0, 0⟩, [], 1, 1, 1⟩)]⟩ ⟨3, 4⟩ 7).1 rfl
    rw [h]
    simp [KiraOld.Track.add_input]
    norm_num
  · exact ((mixer_add_input_fallback_spec
      ⟨⟨⟨1, 2⟩, [], 1, 1, 1⟩, [(5, ⟨⟨0, 0⟩, [], 1, 1, 1⟩)]⟩ ⟨3, 4⟩ 5).2.1
      ⟨⟨0, 0⟩, [], 1, 1, 1⟩ rfl).2.1

/-- Unrolling the sub-track fold of `Mixer::process`: it appends the
processed sub-tracks in order and accumulates the sum of their
outputs. -/
theorem mixer_process_fold (dt : ℚ) (l : List (ℕ × KiraOld.Track)) :
    ∀ (accl : List (ℕ × KiraOld.Track)) (accf : Kira.Frame),
    l.foldl (fun (acc : List (ℕ × KiraOld.Track) × Kira.Frame) p =>
        let r := p.2.process dt
        (acc.1 ++ [(p.1, r.1)], acc.2 + r.2)) (accl, accf) =
      (accl ++ l.map (fun p => (p.1, (p.2.process dt).1)),
        accf + KiraOld.sumFrames (l.map (fun p => (p.2.process dt).2))) := by
  induction l with
  | nil =>
    intro accl accf
    simp [KiraOld.sumFrames]
  | cons q rest ih =>
    intro accl accf
    simp only [List.foldl_cons, List.map_cons]
    rw [ih]
    have hsum : KiraOld.sumFrames ((q.2.process dt).2 ::
        rest.map (fun p => (p.2.process dt).2)) =
        (q.2.process dt).2 + KiraOld.sumFrames (rest.map (fun p => (p.2.process dt).2)) := by
      simp only [KiraOld.sumFrames, List.foldl_cons, frame_zero_add]
      have hshift : ∀ (l' : List Kira.Frame) (a : Kira.Frame),
          l'.foldl (fun x y => x + y) a =
            a + l'.foldl (fun x y => x + y) (Kira.Frame.from_mono 0) := by
        intro l'
        induction l' with
        | nil =>
          intro a
          simp
        | cons x xs ihx =>
          intro a
          simp only [List.foldl_cons, frame_zero_add]
          rw [ihx (a + x), ihx x, frame_add_assoc]
      exact hshift _ _
    rw [hsum, List.append_assoc, frame_add_assoc]
    rfl

/-- C5: `Mixer::process` processes every sub-track before the main
track — the resulting state holds each sub-track's processed
successor, in order — and returns the main track's processed output,
where the main track's input for the step is its own accumulated input
plus the sum of all sub-tracks' processed outputs. -/
theorem mixer_process_order_spec (m : KiraOld.Mixer) (dt : ℚ) :
    (m.process dt).2 =
      ((m.main_track.add_input
        (KiraOld.sumFrames (m.sub_tracks.map (fun p => (p.2.process dt).2)))).process dt).2 ∧
    (m.process dt).1.sub_tracks =
      m.sub_tracks.map (fun p => (p.1, (p.2.process dt).1)) ∧
    (m.process dt).1.main_track =
      ((m.main_track.add_input
        (KiraOld.sumFrames (m.sub_tracks.map (fun p => (p.2.process dt).2)))).process dt).1 := by
  simp only [KiraOld.Mixer.process]
  rw [mixer_process_fold dt m.sub_tracks [] (Kira.Frame.from_mono 0)]
  simp

/-- `IndexMap::remove` with a key that is absent leaves the map
unchanged and returns nothing. -/
theorem indexMapSwapRemove_not_found {m : List (ℕ × KiraOld.Track)} {id : ℕ}
    (h : ∀ t, (id, t) ∉ m) :
    KiraOld.indexMapSwapRemove m id = (none, m) := by
  have hall : m.dropWhile (fun p => p.1 != id) = [] := by
    rw [List.dropWhile_eq_nil_iff]
    intro x hx
    cases x with
    | mk k v =>
      simp only [bne_iff_ne, ne_eq, decide_eq_true_eq]
      intro hk
      rw [hk] at hx
      exact h v hx
  simp only [KiraOld.indexMapSwapRemove, hall]

/-- `IndexMap::remove` with a present key (keys being unique, as in an
`IndexMap`) returns the stored value and a map in which the key is
gone while every other entry is preserved. -/
theorem indexMapSwapRemove_found {m : List (ℕ × KiraOld.Track)} {id : ℕ}
    {t : KiraOld.Track} (hnd : (m.map Prod.fst).Nodup) (hmem : (id, t) ∈ m) :
    ∃ rest, KiraOld.indexMapSwapRemove m id = (some t, rest) ∧
      (∀ t', (id, t') ∉ rest) ∧
      (∀ p : ℕ × KiraOld.Track, p.1 ≠ id → (p ∈ rest ↔ p ∈ m)) := by
  have hne : m.dropWhile (fun p => p.1 != id) ≠ [] := by
    intro hnil
    have := List.dropWhile_eq_nil_iff.mp hnil (id, t) hmem
    simp at this
  obtain ⟨e, after, he⟩ : ∃ e after, m.dropWhile (fun p => p.1 != id) = e :: after := by
    cases hdw : m.dropWhile (fun p => p.1 != id) with
    | nil => exact absurd hdw hne
    | cons a l => exact ⟨a, l, rfl⟩
  have hek : e.1 = id := by
    have hh := List.head_dropWhile_not (fun p : ℕ × KiraOld.Track => p.1 != id) m hne
    simp only [he, List.head_cons] at hh
    simpa using hh
  have hsplit : m.takeWhile (fun p => p.1 != id) ++ e :: after = m := by
    rw [← he]
    exact List.takeWhile_append_dropWhile _ _
  have hbefore_ne : ∀ p ∈ m.takeWhile (fun p => p.1 != id), p.1 ≠ id := by
    intro p hp
    have := List.mem_takeWhile_imp hp
    simpa using this
  have hnd' : ((m.takeWhile (fun p => p.1 != id) ++ e :: after).map Prod.fst).Nodup := by
    rw [hsplit]
    exact hnd
  have hid_after : ∀ q ∈ after, q.1 ≠ id := by
    intro q hq hqid
    rw [List.map_append] at hnd'
    have h2 := (List.nodup_append.mp hnd').2.1
    simp only [List.map_cons] at h2
    have h3 := (List.nodup_cons.mp h2).1
    apply h3
    rw [hek]
    exact List.mem_map.mpr ⟨q, hq, hqid⟩
  have het : e = (id, t) := by
    have hmem' : (id, t) ∈ m.takeWhile (fun p => p.1 != id) ++ e :: after := by
      rw [hsplit]
      exact hmem
    rcases List.mem_append.mp hmem' with hb | hc
    · exact absurd rfl (hbefore_ne _ hb)
    · rcases List.mem_cons.mp hc with heq | hafter
      · exact heq.symm
      · exact absurd rfl (hid_after _ hafter)
  cases hafter : after with
  | nil =>
    refine ⟨m.takeWhile (fun p => p.1 != id), ?_, ?_, ?_⟩
    · simp only [KiraOld.indexMapSwapRemove, he, hafter, List.getLast?_nil, het]
    · intro t' ht'
      exact hbefore_ne _ ht' rfl
    · intro p hp
      constructor
      · intro hpb
        rw [← hsplit]
        exact List.mem_append_left _ hpb
      · intro hpm
        rw [← hsplit, hafter] at hpm
        rcases List.mem_append.mp hpm with h | h
        · exact h
        · rcases List.mem_cons.mp h with h | h
          · exfalso
            apply hp
            rw [h, het]
          · simp at h
  | cons a as =>
    cases hla : (a :: as).getLast? with
    | none => simp at hla
    | some la =>
      have hdl : (a :: as).dropLast ++ [la] = a :: as :=
        List.dropLast_append_getLast? la hla
      have hmem_iff : ∀ p : ℕ × KiraOld.Track,
          (p ∈ la :: (a :: as).dropLast ↔ p ∈ a :: as) := by
        intro p
        constructor
        · intro h
          have hh : p ∈ (a :: as).dropLast ++ [la] := by
            rcases List.mem_cons.mp h with h | h
            · exact List.mem_append_right _ (by simp [h])
            · exact List.mem_append_left _ h
          rwa [hdl] at hh
        · intro h
          rw [← hdl] at h
          rcases List.mem_append.mp h with h | h
          · exact List.mem_cons_of_mem _ h
          · simp only [List.mem_singleton] at h
            rw [h]
            exact List.mem_cons_self _ _
      refine ⟨m.takeWhile (fun p => p.1 != id) ++ la :: (a :: as).dropLast, ?_, ?_, ?_⟩
      · simp only [KiraOld.indexMapSwapRemove, he, hafter, hla, het]
      · intro t' ht'
        rcases List.mem_append.mp ht' with h | h
        · exact hbefore_ne _ h rfl
        · have hmemafter : (id, t') ∈ after := by
            rw [hafter]
            exact (hmem_iff (id, t')).mp h
          exact hid_after _ hmemafter rfl
      · intro p hp
        constructor
        · intro h
          rcases List.mem_append.mp h with h | h
          · rw [← hsplit]
            exact List.mem_append_left _ h
          · rw [← hsplit]
            apply List.mem_append_right
            apply List.mem_cons_of_mem
            rw [hafter]
            exact (hmem_iff p).mp h
        · intro h
          rw [← hsplit] at h
          rcases List.mem_append.mp h with h | h
          · exact List.mem_append_left _ h
          · rcases List.mem_cons.mp h with h | h
            · exfalso
              apply hp
              rw [h, het]
            · apply List.mem_append_right
              rw [hafter] at h
              exact (hmem_iff p).mpr h

/-- With unique keys, every entry of the map sharing the key found by
`indexMapGet` is the found entry itself. -/
theorem indexMapGet_entries_eq {m : List (ℕ × KiraOld.Track)}
    (hnd : (m.map Prod.fst).Nodup) {id : ℕ} {t : KiraOld.Track}
    (hget : KiraOld.indexMapGet m id = some t) :
    ∀ p ∈ m, p.1 = id → p = (id, t) := by
  intro p hp hpid
  have he := indexMapGet_some_mem hget
  exact List.inj_on_of_nodup_map hnd hp he (by rw [hpid])

/-- Writing back the value already stored at a key leaves the map
unchanged. -/
theorem indexMapModify_self {m : List (ℕ × KiraOld.Track)} {id : ℕ}
    {t : KiraOld.Track} (hnd : (m.map Prod.fst).Nodup)
    (hget : KiraOld.indexMapGet m id = some t) :
    KiraOld.indexMapModify m id (fun _ => t) = m := by
  unfold KiraOld.indexMapModify
  have hpt : ∀ p ∈ m, (if p.1 = id then (p.1, t) else p) = p := by
    intro p hp
    by_cases h : p.1 = id
    · rw [if_pos h]
      have := indexMapGet_entries_eq hnd hget p hp h
      rw [this]
    · rw [if_neg h]
  have hcongr : m.map (fun p => if p.1 = id then (p.1, t) else p) =
      m.map (fun p => p) := List.map_congr_left hpt
  simpa using hcongr

/-- C6: `run_command(RemoveSubTrack(id))` with a known id removes that
track from the sub-track map (other entries are preserved) and sends
the removed `Track` over the `tracks_to_unload` channel instead of
destroying it; `run_command(RemoveEffect(effect_id))` with a known
effect id sends the removed `EffectSlot` over the
`effect_slots_to_unload` channel; a remove command naming an unknown
id leaves the mixer (and both channels) unchanged. -/
theorem mixer_remove_commands_spec (m : KiraOld.Mixer)
    (tracks : List KiraOld.Track) (slots : List KiraOld.EffectSlot) :
    (∀ id : ℕ, (m.sub_tracks.map Prod.fst).Nodup →
      ∀ t : KiraOld.Track, (id, t) ∈ m.sub_tracks →
      ∃ rest, m.run_command (KiraOld.MixerCommand.RemoveSubTrack id) tracks slots =
          ({ m with sub_tracks := rest }, tracks ++ [t], slots) ∧
        (∀ t', (id, t') ∉ rest) ∧
        (∀ p : ℕ × KiraOld.Track, p.1 ≠ id → (p ∈ rest ↔ p ∈ m.sub_tracks))) ∧
    (∀ id : ℕ, (∀ t, (id, t) ∉ m.sub_tracks) →
      m.run_command (KiraOld.MixerCommand.RemoveSubTrack id) tracks slots =
        (m, tracks, slots)) ∧
    (∀ eid : KiraOld.EffectId, eid.track_index = KiraOld.TrackIndex.Main →
      ∀ slot, m.main_track.effect_slots.find? (fun s => s.id == eid) = some slot →
      m.run_command (KiraOld.MixerCommand.RemoveEffect eid) tracks slots =
        ({ m with main_track := { m.main_track with effect_slots :=
            (m.main_track.effect_slots.eraseP (fun s => s.id == eid)) } },
          tracks, slots ++ [slot])) ∧
    (∀ (eid : KiraOld.EffectId) (sid : ℕ),
      eid.track_index = KiraOld.TrackIndex.Sub sid →
      ∀ t : KiraOld.Track, KiraOld.indexMapGet m.sub_tracks sid = some t →
      ∀ slot, t.effect_slots.find? (fun s => s.id == eid) = some slot →
      (m.run_command (KiraOld.MixerCommand.RemoveEffect eid) tracks slots).2.2 =
        slots ++ [slot] ∧
      (m.run_command (KiraOld.MixerCommand.RemoveEffect eid) tracks slots).2.1 =
        tracks) ∧
    (∀ (eid : KiraOld.EffectId) (sid : ℕ),
      eid.track_index = KiraOld.TrackIndex.Sub sid →
      KiraOld.indexMapGet m.sub_tracks sid = none →
      m.run_command (KiraOld.MixerCommand.RemoveEffect eid) tracks slots =
        (m, tracks, slots)) ∧
    (∀ eid : KiraOld.EffectId, eid.track_index = KiraOld.TrackIndex.Main →
      m.main_track.effect_slots.find? (fun s => s.id == eid) = none →
      m.run_command (KiraOld.MixerCommand.RemoveEffect eid) tracks slots =
        (m, tracks, slots)) ∧
    (∀ (eid : KiraOld.EffectId) (sid : ℕ),
      eid.track_index = KiraOld.TrackIndex.Sub sid →
      (m.sub_tracks.map Prod.fst).Nodup →
      ∀ t : KiraOld.Track, KiraOld.indexMapGet m.sub_tracks sid = some t →
      t.effect_slots.find? (fun s => s.id == eid) = none →
      m.run_command (KiraOld.MixerCommand.RemoveEffect eid) tracks slots =
        (m, tracks, slots)) := by
  refine ⟨?_, ?_, ?_, ?_, ?_, ?_, ?_⟩
  · intro id hnd t hmem
    obtain ⟨rest, hsw, hgone, hkeep⟩ := indexMapSwapRemove_found hnd hmem
    refine ⟨rest, ?_, hgone, hkeep⟩
    simp only [KiraOld.Mixer.run_command, hsw]
  · intro id hnotin
    have hsw := indexMapSwapRemove_not_found hnotin
    simp only [KiraOld.Mixer.run_command, hsw]
  · intro eid heq slot hfind
    simp only [KiraOld.Mixer.run_command, heq, KiraOld.Track.remove_effect, hfind]
  · intro eid sid heq t hget slot hfind
    simp only [KiraOld.Mixer.run_command, heq, hget, KiraOld.Track.remove_effect, hfind]
    constructor <;> trivial
  · intro eid sid heq hget
    simp only [KiraOld.Mixer.run_command, heq, hget]
  · intro eid heq hfind
    simp only [KiraOld.Mixer.run_command, heq, KiraOld.Track.remove_effect, hfind]
  · intro eid sid heq hnd t hget hfind
    simp only [KiraOld.Mixer.run_command, heq, hget, KiraOld.Track.remove_effect, hfind]
    rw [indexMapModify_self hnd hget]

/-- C6 witness: a mixer with one sub-track (id 5, holding one effect)
and one effect on the main track; removing sub-track 5 sends the
track, removing its effect sends the slot, and removing the unknown
sub-track 7 changes nothing. -/
theorem mixer_remove_commands_spec_witness :
    (∃ rest, KiraOld.Mixer.run_command
        ⟨⟨⟨1, 2⟩, [], 1, 1, 1⟩, [(5, ⟨⟨0, 0⟩, [], 1, 1, 1⟩)]⟩
        (KiraOld.MixerCommand.RemoveSubTrack 5) [] [] =
        (⟨⟨⟨1, 2⟩, [], 1, 1, 1⟩, rest⟩, [⟨⟨0, 0⟩, [], 1, 1, 1⟩], []) ∧
      (∀ t', (5, t') ∉ rest)) ∧
    KiraOld.Mixer.run_command
        ⟨⟨⟨1, 2⟩, [], 1, 1, 1⟩, [(5, ⟨⟨0, 0⟩, [], 1, 1, 1⟩)]⟩
        (KiraOld.MixerCommand.RemoveSubTrack 7) [] [] =
      (⟨⟨⟨1, 2⟩, [], 1, 1, 1⟩, [(5, ⟨⟨0, 0⟩, [], 1, 1, 1⟩)]⟩, [], []) := by
  constructor
  · obtain ⟨rest, hrun, hgone, _⟩ :=
      (mixer_remove_commands_spec
        ⟨⟨⟨1, 2⟩, [], 1, 1, 1⟩, [(5, ⟨⟨0, 0⟩, [], 1, 1, 1⟩)]⟩ [] []).1 5
        (by simp) ⟨⟨0, 0⟩, [], 1, 1, 1⟩ (by simp)
    exact ⟨rest, by simpa using hrun, hgone⟩
  · refine (mixer_remove_commands_spec
      ⟨⟨⟨1, 2⟩, [], 1, 1, 1⟩, [(5, ⟨⟨0, 0⟩, [], 1, 1, 1⟩)]⟩ [] []).2.1 7 ?_
    intro t ht
    simp only [List.mem_singleton, Prod.mk.injEq] at ht
    exact absurd ht.1 (by norm_num)

/-- The index loop `for i in 0..len` reading `channel[i]` rebuilds the
channel. -/
theorem range_map_getD_comp {β : Type} (l : List ℚ) (g : ℚ → β) :
    (List.range l.length).map (fun i => g (l.getD i 0)) = l.map g := by
  induction l with
  | nil => rfl
  | cons a rest ih =>
    simp only [List.length_cons, List.range_succ_eq_map, List.map_cons, List.map_map]
    congr 1

/-- The paired index loop over two equally long channels is the zip of
the channels. -/
theorem range_map_getD_pair {β : Type} (l1 : List ℚ) (g : ℚ → ℚ → β) :
    ∀ l2 : List ℚ, l1.length = l2.length →
    (List.range l1.length).map (fun i => g (l1.getD i 0) (l2.getD i 0)) =
      (l1.zip l2).map (fun q => g q.1 q.2) := by
  induction l1 with
  | nil =>
    intro l2 _
    rfl
  | cons a rest ih =>
    intro l2 hlen
    cases l2 with
    | nil => simp at hlen
    | cons b rest2 =>
      simp only [List.length_cons, List.range_succ_eq_map, List.map_cons,
        List.map_map, List.zip_cons_cons]
      congr 1
      rw [← ih rest2 (by simpa using hlen)]
      rfl

/-- Splitting an interleaved stereo stream back into pairs recovers the
pairs: `while let (Some(left), Some(right))` walks them in order. -/
theorem pairUp_interleave {α : Type} (l : List (α × α)) :
    Conductor.pairUp (interleave l) = l := by
  induction l with
  | nil => rfl
  | cons p rest ih =>
    cases p
    simp only [interleave, Conductor.pairUp, ih]

/-- Accumulating decoded mono packets concatenates the duplicated
channels. -/
theorem oggCollect_mono (chans : List (List ℚ)) :
    Conductor.oggCollect (chans.map (fun ch => [ch])) =
      Except.ok ((chans.map (fun ch => ch.map Conductor.StereoSample.from_mono)).flatten) := by
  induction chans with
  | nil => rfl
  | cons ch rest ih =>
    simp only [List.map_cons, Conductor.oggCollect, List.flatten_cons]
    have hp : Conductor.oggPacketFrames [ch] =
        Except.ok (ch.map Conductor.StereoSample.from_mono) := by
      simp only [Conductor.oggPacketFrames, Conductor.packetNumSamples,
        List.head?_cons, Option.map_some', Option.getD_some]
      rw [range_map_getD_comp]
    rw [hp, ih]
    rfl

/-- Accumulating decoded stereo packets pairs the two channels of each
packet in order. -/
theorem oggCollect_stereo (ps : List (List ℚ × List ℚ))
    (h : ∀ pr ∈ ps, pr.1.length = pr.2.length) :
    Conductor.oggCollect (ps.map (fun pr => [pr.1, pr.2])) =
      Except.ok ((ps.map (fun pr =>
        (pr.1.zip pr.2).map (fun q => Conductor.StereoSample.new q.1 q.2))).flatten) := by
  induction ps with
  | nil => rfl
  | cons pr rest ih =>
    simp only [List.map_cons, Conductor.oggCollect, List.flatten_cons]
    have hp : Conductor.oggPacketFrames [pr.1, pr.2] =
        Except.ok ((pr.1.zip pr.2).map (fun q => Conductor.StereoSample.new q.1 q.2)) := by
      simp only [Conductor.oggPacketFrames, Conductor.packetNumSamples,
        List.head?_cons, Option.map_some', Option.getD_some]
      rw [range_map_getD_pair pr.1 _ pr.2 (h pr (List.mem_cons_self pr rest))]
    rw [hp, ih (fun q hq => h q (List.mem_cons_of_mem pr hq))]
    rfl

/-- C7: each loader rejects a source with 3 or more channels with
`UnsupportedChannelConfiguration`; a mono source is expanded so that
every output frame carries the source sample on both channels; a
stereo source's left/right samples are preserved pairwise in order. -/
theorem loaders_channel_spec :
    (∀ (packets : List (List (List ℚ))) (c sr : ℕ)
        (st : Conductor.SoundSettings),
      3 ≤ c → packets ≠ [] → (∀ p ∈ packets, p.length = c) →
      Conductor.Sound.from_ogg_file packets sr st =
        Except.error Conductor.ConductorError.UnsupportedChannelConfiguration) ∧
    (∀ (chans : List (List ℚ)) (sr : ℕ) (st : Conductor.SoundSettings),
      Conductor.Sound.from_ogg_file (chans.map (fun ch => [ch])) sr st =
        Except.ok (Conductor.Sound.new sr
          ((chans.map (fun ch => ch.map Conductor.StereoSample.from_mono)).flatten) st)) ∧
    (∀ (ps : List (List ℚ × List ℚ)) (sr : ℕ) (st : Conductor.SoundSettings),
      (∀ pr ∈ ps, pr.1.length = pr.2.length) →
      Conductor.Sound.from_ogg_file (ps.map (fun pr => [pr.1, pr.2])) sr st =
        Except.ok (Conductor.Sound.new sr
          ((ps.map (fun pr =>
            (pr.1.zip pr.2).map (fun q => Conductor.StereoSample.new q.1 q.2))).flatten) st)) ∧
    (∀ (c bits : ℕ) (samples : List ℤ) (sr : ℕ) (st : Conductor.SoundSettings),
      3 ≤ c →
      Conductor.Sound.from_flac_file c bits samples sr st =
        Except.error Conductor.ConductorError.UnsupportedChannelConfiguration) ∧
    (∀ (bits : ℕ) (samples : List ℤ) (sr : ℕ) (st : Conductor.SoundSettings),
      Conductor.Sound.from_flac_file 1 bits samples sr st =
        Except.ok (Conductor.Sound.new sr
          (samples.map (fun s => Conductor.StereoSample.from_i32 s s bits)) st) ∧
      ∀ sound : Conductor.Sound,
        Conductor.Sound.from_flac_file 1 bits samples sr st = Except.ok sound →
        ∀ fr ∈ sound.samples, fr.left = fr.right) ∧
    (∀ (bits : ℕ) (prs : List (ℤ × ℤ)) (sr : ℕ) (st : Conductor.SoundSettings),
      Conductor.Sound.from_flac_file 2 bits (interleave prs) sr st =
        Except.ok (Conductor.Sound.new sr
          (prs.map (fun p => Conductor.StereoSample.from_i32 p.1 p.2 bits)) st)) ∧
    (∀ (c bits : ℕ) (data : Conductor.WavSamples) (sr : ℕ)
        (st : Conductor.SoundSettings),
      3 ≤ c →
      Conductor.Sound.from_wav_file c bits data sr st =
        Except.error Conductor.ConductorError.UnsupportedChannelConfiguration) ∧
    (∀ (bits : ℕ) (samples : List ℚ) (sr : ℕ) (st : Conductor.SoundSettings),
      Conductor.Sound.from_wav_file 1 bits (Conductor.WavSamples.Float samples) sr st =
        Except.ok (Conductor.Sound.new sr
          (samples.map Conductor.StereoSample.from_mono) st)) ∧
    (∀ (bits : ℕ) (samples : List ℤ) (sr : ℕ) (st : Conductor.SoundSettings),
      Conductor.Sound.from_wav_file 1 bits (Conductor.WavSamples.Int samples) sr st =
        Except.ok (Conductor.Sound.new sr
          (samples.map (fun s => Conductor.StereoSample.from_i32 s s bits)) st)) ∧
    (∀ (bits : ℕ) (prs : List (ℚ × ℚ)) (sr : ℕ) (st : Conductor.SoundSettings),
      Conductor.Sound.from_wav_file 2 bits
          (Conductor.WavSamples.Float (interleave prs)) sr st =
        Except.ok (Conductor.Sound.new sr
          (prs.map (fun p => Conductor.StereoSample.new p.1 p.2)) st)) ∧
    (∀ (bits : ℕ) (prs : List (ℤ × ℤ)) (sr : ℕ) (st : Conductor.SoundSettings),
      Conductor.Sound.from_wav_file 2 bits
          (Conductor.WavSamples.Int (interleave prs)) sr st =
        Except.ok (Conductor.Sound.new sr
          (prs.map (fun p => Conductor.StereoSample.from_i32 p.1 p.2 bits)) st)) := by
  refine ⟨?_, ?_, ?_, ?_, ?_, ?_, ?_, ?_, ?_, ?_, ?_⟩
  · intro packets c sr st hc hne hall
    cases packets with
    | nil => exact absurd rfl hne
    | cons p rest =>
      have hplen : p.length = c := hall p (List.mem_cons_self p rest)
      have herr : Conductor.oggPacketFrames p =
          Except.error Conductor.ConductorError.UnsupportedChannelConfiguration := by
        match p, hplen with
        | [], h => simp at h; omega
        | [x], h => simp at h; omega
        | [x, y], h => simp at h; omega
        | x :: y :: z :: r, h => rfl
      simp only [Conductor.Sound.from_ogg_file, Conductor.oggCollect, herr]
      rfl
  · intro chans sr st
    simp only [Conductor.Sound.from_ogg_file, oggCollect_mono]
    rfl
  · intro ps sr st h
    simp only [Conductor.Sound.from_ogg_file, oggCollect_stereo ps h]
    rfl
  · intro c bits samples sr st hc
    obtain ⟨k, rfl⟩ : ∃ k, c = k + 3 := ⟨c - 3, by omega⟩
    rfl
  · intro bits samples sr st
    refine ⟨rfl, ?_⟩
    intro sound hok fr hfr
    have hs : sound = Conductor.Sound.new sr
        (samples.map (fun s => Conductor.StereoSample.from_i32 s s bits)) st := by
      have : Except.ok (ε := Conductor.ConductorError) sound =
          Except.ok (Conductor.Sound.new sr
            (samples.map (fun s => Conductor.StereoSample.from_i32 s s bits)) st) := by
        rw [← hok]
        rfl
      exact Except.ok.inj this
    rw [hs] at hfr
    simp only [Conductor.Sound.new] at hfr
    obtain ⟨s0, _, hfr0⟩ := List.mem_map.mp hfr
    rw [← hfr0]
    rfl
  · intro bits prs sr st
    simp only [Conductor.Sound.from_flac_file, pairUp_interleave]
  · intro c bits data sr st hc
    obtain ⟨k, rfl⟩ : ∃ k, c = k + 3 := ⟨c - 3, by omega⟩
    cases data <;> rfl
  · intro bits samples sr st
    rfl
  · intro bits samples sr st
    rfl
  · intro bits prs sr st
    simp only [Conductor.Sound.from_wav_file, pairUp_interleave]
  · intro bits prs sr st
    simp only [Conductor.Sound.from_wav_file, pairUp_interleave]

/-- C7 witness: a 3-channel ogg packet is rejected; the mono ogg file
`[[0.5]]` produces the single frame `(0.5, 0.5)`; the interleaved
stereo wav stream `[1, 2]` produces the single frame `(1, 2)`. -/
theorem loaders_channel_spec_witness :
    Conductor.Sound.from_ogg_file [[[1], [1], [1]]] 44100 ⟨none, ⟨none⟩⟩ =
      Except.error Conductor.ConductorError.UnsupportedChannelConfiguration ∧
    Conductor.Sound.from_ogg_file [[[(1/2 : ℚ)]]] 44100 ⟨none, ⟨none⟩⟩ =
      Except.ok (Conductor.Sound.new 44100 [⟨1/2, 1/2⟩] ⟨none, ⟨none⟩⟩) ∧
    Conductor.Sound.from_wav_file 2 32
        (Conductor.WavSamples.Float [1, 2]) 44100 ⟨none, ⟨none⟩⟩ =
      Except.ok (Conductor.Sound.new 44100 [⟨1, 2⟩] ⟨none, ⟨none⟩⟩) := by
  refine ⟨?_, ?_, ?_⟩
  · exact loaders_channel_spec.1 [[[1], [1], [1]]] 3 44100 ⟨none, ⟨none⟩⟩
      (by norm_num) (by simp) (by simp)
  · have h := loaders_channel_spec.2.1 [[(1/2 : ℚ)]] 44100 ⟨none, ⟨none⟩⟩
    simpa using h
  · have h := loaders_channel_spec.2.2.2.2.2.2.2.2.2.1 32 [((1 : ℚ), (2 : ℚ))]
      44100 ⟨none, ⟨none⟩⟩
    simpa [interleave] using h
